import Mathlib

/-!
Shallow embedding of the mh_finance budget ledger and income-allocation
engine (src/classes.py): the ExpenseManager table operations and the
BudgetManager waterfall allocator, with SQLite state modelled as explicit
list-based tables and REAL amounts modelled as exact rationals.
-/

namespace MhFinance

/-- A row of the expenses table: id, Date, Category, Description, Amount. -/
structure ExpenseRecord where
  id : Nat
  date : Nat
  category : String
  description : String
  amount : ℚ
deriving DecidableEq

/-- Database state shared by the managers: the expenses table together with
its autoincrement counter, and the budgets table (category, current_balance). -/
structure DB where
  expenses : List ExpenseRecord
  nextId : Nat
  budgets : List (String × ℚ)
deriving DecidableEq

/-- Configuration held by BudgetManager: allocation_map (weights) and
limit_map (caps), as association lists in dict insertion order. -/
structure Manager where
  allocation_map : List (String × ℚ)
  limit_map : List (String × ℚ)
deriving DecidableEq

/-- Python dict.get k d over an association list (first match wins;
a dict has unique keys, so the first match is the only one). -/
def lookupD : List (String × ℚ) → String → ℚ → ℚ
  | [], _, d => d
  | p :: rest, k, d => if p.1 = k then p.2 else lookupD rest k d

/-- The result of pandas read_sql / the empty fallback frame: column names
plus rows. -/
structure Frame where
  cols : List String
  rows : List ExpenseRecord
deriving DecidableEq

/-- The columns of the expenses table created by ExpenseManager.init_db. -/
def expensesCols : List String := ["id", "Date", "Category", "Description", "Amount"]

/-- ExpenseManager.load_data: SELECT * FROM expenses; on any read failure it
returns an empty frame with the literal column list from the except branch. -/
def load_data (db : DB) (readFails : Bool) : Frame :=
  if readFails then { cols := ["id", "Date", "Category", "Description", "Amount"], rows := [] }
  else { cols := expensesCols, rows := db.expenses }

/-- ExpenseManager.save_bulk_data: DELETE FROM expenses, then append the
given rows, in one transaction; budgets and the id counter are untouched. -/
def save_bulk_data (db : DB) (records : List ExpenseRecord) : DB :=
  { db with expenses := [] ++ records }

/-- ExpenseManager.add_expense: INSERT the expense row (auto id, Date = now)
and UPDATE budgets SET current_balance = current_balance - amount WHERE
category matches, in one transaction. -/
def add_expense (db : DB) (now : Nat) (category description : String) (amount : ℚ) : DB :=
  { db with
      expenses := db.expenses ++
        [{ id := db.nextId, date := now, category := category,
           description := description, amount := amount }],
      nextId := db.nextId + 1,
      budgets := db.budgets.map fun r => if r.1 = category then (r.1, r.2 - amount) else r }

/-- INSERT OR IGNORE INTO budgets (category, current_balance) VALUES (c, 0):
appends a zero row only when no row with that category exists. -/
def insertOrIgnore (budgets : List (String × ℚ)) (c : String) : List (String × ℚ) :=
  if c ∈ budgets.map Prod.fst then budgets else budgets ++ [(c, 0)]

/-- BudgetManager.init_db: CREATE TABLE IF NOT EXISTS budgets, then for every
category of allocation_map an INSERT OR IGNORE of a zero-balance row. -/
def init_db (m : Manager) (db : DB) : DB :=
  { db with budgets := m.allocation_map.foldl (fun b p => insertOrIgnore b p.1) db.budgets }

/-- BudgetManager.get_balances: snapshot of the budgets table. -/
def get_balances (db : DB) : List (String × ℚ) := db.budgets

/-- Per-category state of the allocation loop: weight from allocation_map,
limit from limit_map, balance from the snapshot, and the running
allocations entry for the category. -/
structure Entry where
  name : String
  weight : ℚ
  limit : ℚ
  balance : ℚ
  alloc : ℚ
deriving DecidableEq

/-- The active test of the loop: pct > 0 and (limit == 0 or current < limit),
with current = snapshot balance + allocations so far. -/
def isActive (e : Entry) : Bool :=
  decide (0 < e.weight) && (decide (e.limit = 0) || decide (e.balance + e.alloc < e.limit))

/-- total_active_weight: sum of the weights of the active categories. -/
def totalActiveWeight (es : List Entry) : ℚ :=
  ((es.filter isActive).map Entry.weight).sum

/-- share = remaining_income * (weight / total_active_weight). -/
def entryShare (r totalW : ℚ) (e : Entry) : ℚ :=
  r * (e.weight / totalW)

/-- actual_add = min(share, space) where space = limit - current when
limit > 0 and infinite otherwise (min with infinity is the share). -/
def entryAdd (r totalW : ℚ) (e : Entry) : ℚ :=
  if 0 < e.limit then min (entryShare r totalW e) (e.limit - (e.balance + e.alloc))
  else entryShare r totalW e

/-- One distribution round: every active category accumulates its
actual_add; inactive categories are untouched. -/
def applyRound (r : ℚ) (es : List Entry) : List Entry :=
  es.map fun e =>
    if isActive e then { e with alloc := e.alloc + entryAdd r (totalActiveWeight es) e } else e

/-- distributed_this_round: the sum of the actual_add of the active
categories. -/
def roundDistributed (r : ℚ) (es : List Entry) : ℚ :=
  ((es.filter isActive).map (entryAdd r (totalActiveWeight es))).sum

/-- The while loop of allocate_income, with explicit fuel: it runs while
remaining_income > 0.01, breaking when no active category is left, when the
active weight is zero, or when a round distributes less than 0.01. The fuel
used by allocate_income is shown sufficient by the termination theorem. -/
def waterfallLoop : Nat → ℚ → List Entry → List Entry × ℚ
  | 0, r, es => (es, r)
  | n + 1, r, es =>
    if r ≤ 1 / 100 then (es, r)
    else if es.filter isActive = [] then (es, r)
    else if totalActiveWeight es = 0 then (es, r)
    else if roundDistributed r es < 1 / 100 then (applyRound r es, r - roundDistributed r es)
    else waterfallLoop n (r - roundDistributed r es) (applyRound r es)

/-- The loop state for one category: its weight, its limit_map.get(cat, 0),
its current_balances.get(cat, 0.0), and allocations[cat] = 0.0. -/
def mkEntry (limits budgets : List (String × ℚ)) (p : String × ℚ) : Entry :=
  { name := p.1, weight := p.2, limit := lookupD limits p.1 0,
    balance := lookupD budgets p.1 0, alloc := 0 }

/-- The initial loop state: one entry per allocation_map item, in dict
order. -/
def mkEntries (m : Manager) (budgets : List (String × ℚ)) : List Entry :=
  m.allocation_map.map (mkEntry m.limit_map budgets)

/-- The total credit the commit step applies to a category: the sum of the
positive allocations entries carrying that name. -/
def posCredit (allocs : List (String × ℚ)) (k : String) : ℚ :=
  ((allocs.filter fun p => decide (p.1 = k) && decide (0 < p.2)).map Prod.snd).sum

/-- UPDATE budgets SET current_balance = current_balance + a WHERE
category = c. -/
def applyCredit (budgets : List (String × ℚ)) (c : String) (a : ℚ) : List (String × ℚ) :=
  budgets.map fun r => if r.1 = c then (r.1, r.2 + a) else r

/-- The commit loop of allocate_income: for every allocations item with a
positive amount, one balance UPDATE, all inside one transaction. -/
def commitAllocations (budgets : List (String × ℚ)) : List (String × ℚ) → List (String × ℚ)
  | [] => budgets
  | p :: rest => commitAllocations (if 0 < p.2 then applyCredit budgets p.1 p.2 else budgets) rest

/-- BudgetManager.allocate_income: snapshot the balances, run the waterfall
loop, commit the positive allocations, and return the allocations mapping.
The fuel (category count + 1) is enough; see the termination theorem. -/
def allocate_income (m : Manager) (db : DB) (amount : ℚ) : DB × List (String × ℚ) :=
  let es := mkEntries m (get_balances db)
  let final := waterfallLoop (es.length + 1) amount es
  let allocs := final.1.map fun e => (e.name, e.alloc)
  ({ db with budgets := commitAllocations db.budgets allocs }, allocs)

/-- The post-loop entries of an allocate_income run, for stating what
happened during the run. -/
def finalEntries (m : Manager) (db : DB) (amount : ℚ) : List Entry :=
  (waterfallLoop ((mkEntries m (get_balances db)).length + 1) amount
    (mkEntries m (get_balances db))).1

/-- The sum of the allocations entries over a loop state. -/
def allocSum (es : List Entry) : ℚ := (es.map Entry.alloc).sum

/-- Pointwise relation along the loop: every field but alloc is kept, and
alloc never shrinks. -/
def entryLE (e f : Entry) : Prop :=
  f.name = e.name ∧ f.weight = e.weight ∧ f.limit = e.limit ∧ f.balance = e.balance ∧
    e.alloc ≤ f.alloc

/-- A capped category is at or under its cap. -/
def capped (e : Entry) : Prop := 0 < e.limit → e.balance + e.alloc ≤ e.limit

theorem isActive_iff (e : Entry) :
    isActive e = true ↔ 0 < e.weight ∧ (e.limit = 0 ∨ e.balance + e.alloc < e.limit) := by
  simp [isActive]

theorem entryAdd_le_share (r totalW : ℚ) (e : Entry) :
    entryAdd r totalW e ≤ entryShare r totalW e := by
  unfold entryAdd
  split
  · exact min_le_left _ _
  · exact le_refl _

theorem entryAdd_pos (r totalW : ℚ) (e : Entry) (hr : 0 < r) (hw : 0 < totalW)
    (he : isActive e = true) : 0 < entryAdd r totalW e := by
  rcases (isActive_iff e).1 he with ⟨hwt, hlim⟩
  have hshare : 0 < entryShare r totalW e := mul_pos hr (div_pos hwt hw)
  unfold entryAdd
  split
  · rcases hlim with h0 | hlt
    · rename_i hpos
      rw [h0] at hpos
      exact absurd hpos (lt_irrefl 0)
    · exact lt_min hshare (by linarith)
  · exact hshare

theorem totalActiveWeight_pos (es : List Entry) (h : es.filter isActive ≠ []) :
    0 < totalActiveWeight es := by
  unfold totalActiveWeight
  apply List.sum_pos
  · intro w hw
    rcases List.mem_map.1 hw with ⟨e, he, rfl⟩
    exact ((isActive_iff e).1 (List.mem_filter.1 he).2).1
  · simpa using h

theorem shareSum_eq (r : ℚ) (es : List Entry) (h : es.filter isActive ≠ []) :
    ((es.filter isActive).map (entryShare r (totalActiveWeight es))).sum = r := by
  have hW : 0 < totalActiveWeight es := totalActiveWeight_pos es h
  have hcongr : ∀ e ∈ es.filter isActive,
      entryShare r (totalActiveWeight es) e = r / totalActiveWeight es * e.weight := by
    intro e _
    unfold entryShare
    ring
  rw [List.map_congr_left hcongr, List.sum_map_mul_left]
  exact div_mul_cancel₀ r hW.ne'

theorem roundDistributed_le (r : ℚ) (es : List Entry) (h : es.filter isActive ≠ []) :
    roundDistributed r es ≤ r := by
  unfold roundDistributed
  calc ((es.filter isActive).map (entryAdd r (totalActiveWeight es))).sum
      ≤ ((es.filter isActive).map (entryShare r (totalActiveWeight es))).sum :=
        List.sum_le_sum fun e _ => entryAdd_le_share _ _ e
    _ = r := shareSum_eq r es h

/-- If the while condition fails, the loop returns at once, whatever the
fuel. -/
theorem waterfallLoop_of_le (n : Nat) (r : ℚ) (es : List Entry) (h : r ≤ 1 / 100) :
    waterfallLoop n r es = (es, r) := by
  cases n with
  | zero => rfl
  | succ n => rw [waterfallLoop, if_pos h]

theorem waterfallLoop_remaining_nonneg (n : Nat) (r : ℚ) (es : List Entry) (hr : 0 ≤ r) :
    0 ≤ (waterfallLoop n r es).2 := by
  induction n generalizing r es with
  | zero => exact hr
  | succ n ih =>
    rw [waterfallLoop]
    split_ifs with h1 h2 h3 h4
    · exact hr
    · exact hr
    · exact hr
    · have := roundDistributed_le r es h2
      simp only
      linarith
    · have := roundDistributed_le r es h2
      exact ih _ _ (by linarith)

theorem sum_map_update (es : List Entry) (f : Entry → ℚ) :
    allocSum (es.map fun e => if isActive e then { e with alloc := e.alloc + f e } else e)
      = allocSum es + ((es.filter isActive).map f).sum := by
  induction es with
  | nil => simp [allocSum]
  | cons e t ih =>
    by_cases he : isActive e
    · simp only [allocSum, List.map_cons, List.sum_cons, List.filter_cons, he, if_pos,
        ite_true] at ih ⊢
      rw [ih]
      ring
    · simp only [allocSum, List.map_cons, List.sum_cons, List.filter_cons, he,
        ite_false, Bool.false_eq_true] at ih ⊢
      rw [ih]
      ring

theorem applyRound_allocSum (r : ℚ) (es : List Entry) :
    allocSum (applyRound r es) = allocSum es + roundDistributed r es :=
  sum_map_update es (entryAdd r (totalActiveWeight es))

/-- Conservation along the loop: allocations grow by exactly what remaining
loses. -/
theorem waterfallLoop_conserves (n : Nat) (r : ℚ) (es : List Entry) :
    allocSum (waterfallLoop n r es).1 + (waterfallLoop n r es).2 = allocSum es + r := by
  induction n generalizing r es with
  | zero => rfl
  | succ n ih =>
    rw [waterfallLoop]
    split_ifs with h1 h2 h3 h4
    · rfl
    · rfl
    · rfl
    · simp only
      rw [applyRound_allocSum]
      ring
    · rw [ih, applyRound_allocSum]
      ring

theorem entryLE_refl (e : Entry) : entryLE e e := ⟨rfl, rfl, rfl, rfl, le_refl _⟩

theorem entryLE_trans {a b c : Entry} (h1 : entryLE a b) (h2 : entryLE b c) : entryLE a c := by
  obtain ⟨n1, w1, l1, b1, a1⟩ := h1
  obtain ⟨n2, w2, l2, b2, a2⟩ := h2
  exact ⟨n2.trans n1, w2.trans w1, l2.trans l1, b2.trans b1, a1.trans a2⟩

theorem forall2_entryLE_refl (es : List Entry) : List.Forall₂ entryLE es es :=
  List.forall₂_same.2 fun e _ => entryLE_refl e

theorem forall2_entryLE_trans {l m n : List Entry} (h1 : List.Forall₂ entryLE l m)
    (h2 : List.Forall₂ entryLE m n) : List.Forall₂ entryLE l n := by
  induction h1 generalizing n with
  | nil =>
    cases h2
    exact List.Forall₂.nil
  | cons hR ht ih =>
    cases h2 with
    | cons hR2 ht2 => exact List.Forall₂.cons (entryLE_trans hR hR2) (ih ht2)

theorem forall2_mem_right {R : Entry → Entry → Prop} {l m : List Entry}
    (h : List.Forall₂ R l m) {b : Entry} (hb : b ∈ m) : ∃ a ∈ l, R a b := by
  induction h with
  | nil => cases hb
  | cons hR ht ih =>
    rcases List.mem_cons.1 hb with rfl | hb2
    · exact ⟨_, List.mem_cons_self _ _, hR⟩
    · obtain ⟨a, ha, hRa⟩ := ih hb2
      exact ⟨a, List.mem_cons_of_mem _ ha, hRa⟩

theorem forall2_mem_left {R : Entry → Entry → Prop} {l m : List Entry}
    (h : List.Forall₂ R l m) {a : Entry} (ha : a ∈ l) : ∃ b ∈ m, R a b := by
  induction h with
  | nil => cases ha
  | cons hR ht ih =>
    rcases List.mem_cons.1 ha with rfl | ha2
    · exact ⟨_, List.mem_cons_self _ _, hR⟩
    · obtain ⟨b, hb, hRb⟩ := ih ha2
      exact ⟨b, List.mem_cons_of_mem _ hb, hRb⟩

theorem forall2_entryLE_names {l m : List Entry} (h : List.Forall₂ entryLE l m) :
    m.map Entry.name = l.map Entry.name := by
  induction h with
  | nil => rfl
  | cons hR _ ih => simp [ih, hR.1]

theorem applyRound_entryLE (r : ℚ) (es : List Entry) (hr : 0 < r)
    (hW : 0 < totalActiveWeight es) :
    List.Forall₂ entryLE es (applyRound r es) := by
  unfold applyRound
  rw [List.forall₂_map_right_iff]
  apply List.forall₂_same.2
  intro e _
  by_cases ha : isActive e
  · rw [if_pos ha]
    exact ⟨rfl, rfl, rfl, rfl, le_add_of_nonneg_right (entryAdd_pos r _ e hr hW ha).le⟩
  · rw [if_neg ha]
    exact entryLE_refl e

/-- Allocations only grow along the loop, and no other field changes. -/
theorem waterfallLoop_entryLE (n : Nat) (r : ℚ) (es : List Entry) :
    List.Forall₂ entryLE es (waterfallLoop n r es).1 := by
  induction n generalizing r es with
  | zero => exact forall2_entryLE_refl es
  | succ n ih =>
    rw [waterfallLoop]
    split_ifs with h1 h2 h3 h4
    · exact forall2_entryLE_refl es
    · exact forall2_entryLE_refl es
    · exact forall2_entryLE_refl es
    · exact applyRound_entryLE r es (by linarith [not_le.1 h1]) (totalActiveWeight_pos es h2)
    · exact forall2_entryLE_trans
        (applyRound_entryLE r es (by linarith [not_le.1 h1]) (totalActiveWeight_pos es h2))
        (ih _ _)

theorem applyRound_capped (r : ℚ) (es : List Entry) (h : ∀ e ∈ es, capped e) :
    ∀ e ∈ applyRound r es, capped e := by
  intro e' he'
  rcases List.mem_map.1 he' with ⟨e, he, rfl⟩
  by_cases ha : isActive e
  · rw [if_pos ha]
    intro hlim
    rcases (isActive_iff e).1 ha with ⟨_, h0 | hlt⟩
    · rw [h0] at hlim
      exact absurd hlim (lt_irrefl 0)
    · have hadd : entryAdd r (totalActiveWeight es) e ≤ e.limit - (e.balance + e.alloc) := by
        unfold entryAdd
        rw [if_pos hlim]
        exact min_le_right _ _
      simp only
      linarith
  · rw [if_neg ha]
    exact h e he

/-- The cap invariant is preserved by the whole loop. -/
theorem waterfallLoop_capped (n : Nat) (r : ℚ) (es : List Entry)
    (h : ∀ e ∈ es, capped e) : ∀ e ∈ (waterfallLoop n r es).1, capped e := by
  induction n generalizing r es with
  | zero => exact h
  | succ n ih =>
    rw [waterfallLoop]
    split_ifs with h1 h2 h3 h4
    · exact h
    · exact h
    · exact h
    · exact applyRound_capped r es h
    · exact ih _ _ (applyRound_capped r es h)

/-- The number of active categories of a loop state. -/
def countActive (es : List Entry) : Nat := es.countP isActive

theorem countP_map_le (l : List Entry) (f : Entry → Entry)
    (h : ∀ e ∈ l, isActive (f e) = true → isActive e = true) :
    (l.map f).countP isActive ≤ l.countP isActive := by
  induction l with
  | nil => exact le_refl 0
  | cons e t ih =>
    rw [List.map_cons, List.countP_cons, List.countP_cons]
    have ht := ih fun x hx => h x (List.mem_cons_of_mem _ hx)
    by_cases hfe : isActive (f e) = true
    · have hea := h e (List.mem_cons_self _ _) hfe
      rw [if_pos hfe, if_pos hea]
      omega
    · rw [if_neg hfe]
      by_cases hea : isActive e = true
      · rw [if_pos hea]; omega
      · rw [if_neg hea]; omega

theorem countP_map_lt (l : List Entry) (f : Entry → Entry)
    (h : ∀ e ∈ l, isActive (f e) = true → isActive e = true)
    (hex : ∃ e ∈ l, isActive e = true ∧ ¬ isActive (f e) = true) :
    (l.map f).countP isActive < l.countP isActive := by
  induction l with
  | nil =>
    obtain ⟨e, he, _⟩ := hex
    cases he
  | cons e t ih =>
    rw [List.map_cons, List.countP_cons, List.countP_cons]
    obtain ⟨x, hx, hxa, hxf⟩ := hex
    rcases List.mem_cons.1 hx with rfl | hx2
    · have ht := countP_map_le t f fun y hy => h y (List.mem_cons_of_mem _ hy)
      rw [if_pos hxa, if_neg hxf]
      omega
    · have ht := ih (fun y hy => h y (List.mem_cons_of_mem _ hy)) ⟨x, hx2, hxa, hxf⟩
      by_cases hfe : isActive (f e) = true
      · have hea := h e (List.mem_cons_self _ _) hfe
        rw [if_pos hfe, if_pos hea]
        omega
      · rw [if_neg hfe]
        by_cases hea : isActive e = true
        · rw [if_pos hea]; omega
        · rw [if_neg hea]; omega

/-- A round that leaves part of remaining undistributed must have filled some
capped active category exactly to its cap, which drops out of the active
set: the active count strictly shrinks. -/
theorem round_shrinks (r : ℚ) (es : List Entry)
    (h1 : 1 / 100 < r) (h2 : es.filter isActive ≠ [])
    (hlt : roundDistributed r es < r) :
    countActive (applyRound r es) < countActive es := by
  have hW : 0 < totalActiveWeight es := totalActiveWeight_pos es h2
  have hsum : ((es.filter isActive).map (entryShare r (totalActiveWeight es))).sum = r :=
    shareSum_eq r es h2
  have hex0 : ∃ e ∈ es.filter isActive,
      entryAdd r (totalActiveWeight es) e < entryShare r (totalActiveWeight es) e := by
    apply List.exists_lt_of_sum_lt
    rw [hsum]
    exact hlt
  obtain ⟨e, hef, hlt2⟩ := hex0
  have hea : isActive e = true := (List.mem_filter.1 hef).2
  have hee : e ∈ es := (List.mem_filter.1 hef).1
  have hlim : 0 < e.limit := by
    by_contra hc
    unfold entryAdd at hlt2
    rw [if_neg hc] at hlt2
    exact absurd hlt2 (lt_irrefl _)
  have hadd : entryAdd r (totalActiveWeight es) e = e.limit - (e.balance + e.alloc) := by
    unfold entryAdd at hlt2 ⊢
    rw [if_pos hlim] at hlt2 ⊢
    rcases min_cases (entryShare r (totalActiveWeight es) e)
      (e.limit - (e.balance + e.alloc)) with ⟨hm, _⟩ | ⟨hm, _⟩
    · rw [hm] at hlt2
      exact absurd hlt2 (lt_irrefl _)
    · exact hm
  unfold applyRound countActive
  apply countP_map_lt
  · intro x hx hxf
    by_cases hax : isActive x = true
    · exact hax
    · rw [if_neg hax] at hxf
      exact hxf
  · refine ⟨e, hee, hea, ?_⟩
    rw [if_pos hea, isActive_iff]
    intro ⟨_, hor⟩
    rcases hor with h0 | hcur
    · simp only at h0
      rw [h0] at hlim
      exact absurd hlim (lt_irrefl 0)
    · simp only [hadd] at hcur
      have : e.balance + (e.alloc + (e.limit - (e.balance + e.alloc))) = e.limit := by ring
      rw [this] at hcur
      exact absurd hcur (lt_irrefl _)

/-- Fuel stability: once the fuel covers the active count plus one, more
fuel cannot change the result of the loop. -/
theorem waterfallLoop_stable (k : Nat) :
    ∀ (es : List Entry) (r : ℚ) (n : Nat), countActive es ≤ k → k + 1 ≤ n →
      waterfallLoop n r es = waterfallLoop (k + 1) r es := by
  induction k with
  | zero =>
    intro es r n h0 hn
    have hf : es.filter isActive = [] := by
      unfold countActive at h0
      rw [← List.length_eq_zero, ← List.countP_eq_length_filter]
      omega
    obtain ⟨m, rfl⟩ : ∃ m, n = m + 1 := ⟨n - 1, by omega⟩
    rw [waterfallLoop, waterfallLoop]
    simp [hf]
  | succ k ih =>
    intro es r n hk hn
    obtain ⟨m, rfl⟩ : ∃ m, n = m + 1 := ⟨n - 1, by omega⟩
    rw [waterfallLoop]
    conv_rhs => rw [waterfallLoop]
    split_ifs with hc1 hc2 hc3 hc4
    · rfl
    · rfl
    · rfl
    · rfl
    · by_cases hr2 : r - roundDistributed r es ≤ 1 / 100
      · rw [waterfallLoop_of_le m _ _ hr2, waterfallLoop_of_le (k + 1) _ _ hr2]
      · have hdlt : roundDistributed r es < r := by linarith
        have hshrink := round_shrinks r es (by linarith [not_le.1 hc1]) hc2 hdlt
        exact ih (applyRound r es) _ m (by omega) (by omega)

theorem lookupD_eq_or_mem (l : List (String × ℚ)) (k : String) (d : ℚ) :
    lookupD l k d = d ∨ (k, lookupD l k d) ∈ l := by
  induction l with
  | nil => exact Or.inl rfl
  | cons p t ih =>
    by_cases h : p.1 = k
    · right
      rw [lookupD, if_pos h, ← h]
      exact List.mem_cons_self _ _
    · rw [lookupD, if_neg h]
      rcases ih with h2 | h2
      · exact Or.inl h2
      · exact Or.inr (List.mem_cons_of_mem _ h2)

theorem lookupD_of_mem_nodup (l : List (String × ℚ)) (k : String) (v d : ℚ)
    (hn : (l.map Prod.fst).Nodup) (hm : (k, v) ∈ l) : lookupD l k d = v := by
  induction l with
  | nil => cases hm
  | cons p t ih =>
    rw [List.map_cons, List.nodup_cons] at hn
    rcases List.mem_cons.1 hm with rfl | hm2
    · rw [lookupD, if_pos rfl]
    · have hk : p.1 ≠ k := by
        intro hh
        exact hn.1 (hh ▸ List.mem_map.2 ⟨(k, v), hm2, rfl⟩)
      rw [lookupD, if_neg hk]
      exact ih hn.2 hm2

theorem posCredit_cons (p : String × ℚ) (t : List (String × ℚ)) (k : String) :
    posCredit (p :: t) k = (if p.1 = k ∧ 0 < p.2 then p.2 else 0) + posCredit t k := by
  unfold posCredit
  rw [List.filter_cons]
  by_cases h1 : p.1 = k <;> by_cases h2 : 0 < p.2 <;> simp [h1, h2]

theorem posCredit_nonneg (l : List (String × ℚ)) (k : String) : 0 ≤ posCredit l k := by
  unfold posCredit
  apply List.sum_nonneg
  intro x hx
  rcases List.mem_map.1 hx with ⟨p, hp, rfl⟩
  have := (List.mem_filter.1 hp).2
  simp only [Bool.and_eq_true, decide_eq_true_eq] at this
  exact this.2.le

theorem posCredit_of_not_mem (l : List (String × ℚ)) (k : String)
    (h : k ∉ l.map Prod.fst) : posCredit l k = 0 := by
  induction l with
  | nil => rfl
  | cons p t ih =>
    rw [posCredit_cons]
    have h1 : p.1 ≠ k := fun hh => h (List.mem_cons.2 (Or.inl hh.symm))
    rw [if_neg (fun hc => h1 hc.1), ih fun hh => h (List.mem_cons_of_mem _ hh)]
    rw [zero_add]

theorem posCredit_of_mem_nodup (l : List (String × ℚ)) (k : String) (a : ℚ)
    (hn : (l.map Prod.fst).Nodup) (hm : (k, a) ∈ l) :
    posCredit l k = if 0 < a then a else 0 := by
  induction l with
  | nil => cases hm
  | cons p t ih =>
    rw [List.map_cons, List.nodup_cons] at hn
    rw [posCredit_cons]
    rcases List.mem_cons.1 hm with rfl | hm2
    · have ht : posCredit t k = 0 :=
        posCredit_of_not_mem t k hn.1
      rw [ht, add_zero]
      by_cases ha : 0 < a
      · rw [if_pos ⟨rfl, ha⟩, if_pos ha]
      · rw [if_neg (fun hc => ha hc.2), if_neg ha]
    · have hk : p.1 ≠ k := by
        intro hh
        exact hn.1 (hh ▸ List.mem_map.2 ⟨(k, a), hm2, rfl⟩)
      rw [if_neg (fun hc => hk hc.1), zero_add]
      exact ih hn.2 hm2

/-- The commit loop equals a single pointwise pass adding each row its total
positive credit. -/
theorem commitAllocations_eq_map (allocs budgets : List (String × ℚ)) :
    commitAllocations budgets allocs =
      budgets.map fun r => (r.1, r.2 + posCredit allocs r.1) := by
  induction allocs generalizing budgets with
  | nil =>
    rw [commitAllocations]
    have : ∀ r ∈ budgets, (r.1, r.2 + posCredit [] r.1) = id r := by
      intro r _
      show (r.1, r.2 + 0) = r
      rw [add_zero]
    rw [List.map_congr_left this, List.map_id]
  | cons p t ih =>
    rw [commitAllocations, ih]
    by_cases hp : 0 < p.2
    · rw [if_pos hp]
      unfold applyCredit
      rw [List.map_map]
      apply List.map_congr_left
      intro r _
      by_cases hr : r.1 = p.1
      · simp only [Function.comp, if_pos hr, posCredit_cons]
        rw [if_pos ⟨hr.symm, hp⟩]
        rw [hr]
        ring_nf
      · simp only [Function.comp, if_neg hr, posCredit_cons]
        rw [if_neg (fun hc => hr hc.1.symm), zero_add]
    · rw [if_neg hp]
      apply List.map_congr_left
      intro r _
      rw [posCredit_cons, if_neg (fun hc => hp hc.2), zero_add]

theorem mkEntries_mem (m : Manager) (b : List (String × ℚ)) (e : Entry)
    (he : e ∈ mkEntries m b) :
    e.alloc = 0 ∧ e.limit = lookupD m.limit_map e.name 0 ∧
      e.balance = lookupD b e.name 0 := by
  rcases List.mem_map.1 he with ⟨p, _, rfl⟩
  exact ⟨rfl, rfl, rfl⟩

theorem mkEntries_names (m : Manager) (b : List (String × ℚ)) :
    (mkEntries m b).map Entry.name = m.allocation_map.map Prod.fst := by
  unfold mkEntries
  rw [List.map_map]
  rfl

theorem mkEntries_allocSum (m : Manager) (b : List (String × ℚ)) :
    allocSum (mkEntries m b) = 0 := by
  unfold allocSum
  apply List.sum_eq_zero
  intro x hx
  rcases List.mem_map.1 hx with ⟨e, he, rfl⟩
  exact (mkEntries_mem m b e he).1

theorem mem_keys_insertOrIgnore (b : List (String × ℚ)) (c k : String)
    (h : k ∈ b.map Prod.fst) : k ∈ (insertOrIgnore b c).map Prod.fst := by
  unfold insertOrIgnore
  split
  · exact h
  · rw [List.map_append]
    exact List.mem_append_left _ h

theorem self_mem_keys_insertOrIgnore (b : List (String × ℚ)) (c : String) :
    c ∈ (insertOrIgnore b c).map Prod.fst := by
  unfold insertOrIgnore
  split
  · assumption
  · rw [List.map_append]
    exact List.mem_append_right _ (List.mem_singleton.2 rfl)

theorem keys_mono_foldl (l : List (String × ℚ)) (b : List (String × ℚ)) (k : String)
    (h : k ∈ b.map Prod.fst) :
    k ∈ (l.foldl (fun b2 p => insertOrIgnore b2 p.1) b).map Prod.fst := by
  induction l generalizing b with
  | nil => exact h
  | cons p t ih => exact ih _ (mem_keys_insertOrIgnore b p.1 k h)

theorem mem_keys_foldl (l : List (String × ℚ)) (b : List (String × ℚ)) (p : String × ℚ)
    (hp : p ∈ l) :
    p.1 ∈ (l.foldl (fun b2 q => insertOrIgnore b2 q.1) b).map Prod.fst := by
  induction l generalizing b with
  | nil => cases hp
  | cons q t ih =>
    rcases List.mem_cons.1 hp with rfl | hp2
    · exact keys_mono_foldl t _ _ (self_mem_keys_insertOrIgnore b p.1)
    · exact ih _ hp2

theorem foldl_insertOrIgnore_id (l : List (String × ℚ)) (b : List (String × ℚ))
    (h : ∀ p ∈ l, p.1 ∈ b.map Prod.fst) :
    l.foldl (fun b2 q => insertOrIgnore b2 q.1) b = b := by
  induction l with
  | nil => rfl
  | cons q t ih =>
    have hq : insertOrIgnore b q.1 = b := by
      unfold insertOrIgnore
      rw [if_pos (h q (List.mem_cons_self _ _))]
    show t.foldl _ (insertOrIgnore b q.1) = b
    rw [hq]
    exact ih fun p hp => h p (List.mem_cons_of_mem _ hp)

/-- C7: initialize (BudgetManager.init_db) is idempotent: a second call on a
state the first call produced changes nothing at all - every existing bucket
balance is kept and no duplicate bucket row appears. -/
theorem init_db_idempotent (m : Manager) (db : DB) :
    init_db m (init_db m db) = init_db m db := by
  simp only [init_db]
  congr 1
  exact foldl_insertOrIgnore_id _ _ fun p hp => mem_keys_foldl _ _ p hp

/-- C8: replaceAllExpenses (save_bulk_data) with an empty record set empties
the expense table yet leaves every bucket balance exactly as it was. -/
theorem save_bulk_data_empty (db : DB) :
    (save_bulk_data db []).expenses = [] ∧ (save_bulk_data db []).budgets = db.budgets :=
  ⟨rfl, rfl⟩

/-- C9: loadExpenses (load_data) returns an empty result with exactly the
columns id, Date, Category, Description, Amount on a read failure instead of
propagating it, and returns all stored records on success. -/
theorem load_data_spec (db : DB) :
    load_data db true =
      { cols := ["id", "Date", "Category", "Description", "Amount"], rows := [] } ∧
    load_data db false = { cols := expensesCols, rows := db.expenses } :=
  ⟨rfl, rfl⟩

theorem lookupD_map_sub (b : List (String × ℚ)) (c : String) (a d : ℚ)
    (h : c ∈ b.map Prod.fst) :
    lookupD (b.map fun r => if r.1 = c then (r.1, r.2 - a) else r) c d =
      lookupD b c d - a := by
  induction b with
  | nil => cases h
  | cons r t ih =>
    rw [List.map_cons] at h
    by_cases hr : r.1 = c
    · simp [lookupD, hr]
    · have h2 : c ∈ t.map Prod.fst := (List.mem_cons.1 h).resolve_left fun hh => hr hh.symm
      simp [lookupD, hr, ih h2]

/-- C4: recordExpense (add_expense) on a category with a bucket row grows the
expense table by exactly one record and lowers that category balance by
exactly the amount, within the one committed transaction of the model. -/
theorem add_expense_spec (db : DB) (now : Nat) (c desc : String) (a : ℚ)
    (ha : 0 ≤ a) (hc : c ∈ db.budgets.map Prod.fst) :
    (add_expense db now c desc a).expenses.length = db.expenses.length + 1 ∧
    lookupD (add_expense db now c desc a).budgets c 0 = lookupD db.budgets c 0 - a := by
  constructor
  · simp [add_expense]
  · exact lookupD_map_sub db.budgets c a 0 hc

theorem add_expense_spec_witness :
    (add_expense ⟨[], 0, [("A", 5)]⟩ 0 "A" "" 2).expenses.length =
      (([] : List ExpenseRecord)).length + 1 ∧
    lookupD (add_expense ⟨[], 0, [("A", 5)]⟩ 0 "A" "" 2).budgets "A" 0 =
      lookupD [("A", 5)] "A" 0 - 2 :=
  add_expense_spec ⟨[], 0, [("A", 5)]⟩ 0 "A" "" 2 (by norm_num) (by simp)

/-- C5: at non-positive income the engine raises no InvalidAmount condition:
evaluated at the failing inputs 0 and -5 it silently returns the all-zero
allocation mapping and an unchanged database state. -/
theorem allocate_income_nonpositive_silent_noop :
    allocate_income ⟨[("A", 1)], [("A", 0)]⟩ ⟨[], 0, [("A", 7)]⟩ 0 =
      (⟨[], 0, [("A", 7)]⟩, [("A", 0)]) ∧
    allocate_income ⟨[("A", 1)], [("A", 0)]⟩ ⟨[], 0, [("A", 7)]⟩ (-5) =
      (⟨[], 0, [("A", 7)]⟩, [("A", 0)]) := by
  constructor <;>
    norm_num [allocate_income, get_balances, mkEntries, mkEntry, lookupD, waterfallLoop,
      commitAllocations, applyCredit]

/-- C6: the waterfall loop terminates on every input: with fuel beyond the
category count plus one the result never changes, because each extra round
either strictly shrinks the active set or is the last one by a guard. -/
theorem waterfallLoop_terminates (es : List Entry) (r : ℚ) (n : Nat)
    (hn : es.length + 1 ≤ n) :
    waterfallLoop n r es = waterfallLoop (es.length + 1) r es :=
  waterfallLoop_stable es.length es r n (List.countP_le_length isActive) hn

theorem waterfallLoop_terminates_witness :
    waterfallLoop 5 3 [⟨"A", 1, 0, 0, 0⟩] = waterfallLoop 2 3 [⟨"A", 1, 0, 0, 0⟩] :=
  waterfallLoop_terminates [⟨"A", 1, 0, 0, 0⟩] 3 5 (by norm_num)

/-- C10: every entry of the allocation mapping returned by allocate_income is
nonnegative, so no bucket balance decreases across the commit. -/
theorem allocate_income_nonneg (m : Manager) (db : DB) (amount : ℚ) :
    (∀ p ∈ (allocate_income m db amount).2, 0 ≤ p.2) ∧
    List.Forall₂ (fun r s => s.1 = r.1 ∧ r.2 ≤ s.2) db.budgets
      (allocate_income m db amount).1.budgets := by
  constructor
  · intro p hp
    simp only [allocate_income] at hp
    rcases List.mem_map.1 hp with ⟨e, he, rfl⟩
    obtain ⟨e0, he0, hle⟩ := forall2_mem_right (waterfallLoop_entryLE _ _ _) he
    have h0 : e0.alloc = 0 := (mkEntries_mem _ _ _ he0).1
    simpa using h0 ▸ hle.2.2.2.2
  · simp only [allocate_income]
    rw [commitAllocations_eq_map, List.forall₂_map_right_iff]
    apply List.forall₂_same.2
    intro r _
    exact ⟨rfl, le_add_of_nonneg_right (posCredit_nonneg _ _)⟩

/-- C1: with well-formed tables (unique category keys) and every capped
category starting at or under its cap, allocate_income never leaves a
committed balance above the cap of its category. -/
theorem allocate_income_respects_caps (m : Manager) (db : DB) (amount : ℚ)
    (hA : (m.allocation_map.map Prod.fst).Nodup)
    (hB : (db.budgets.map Prod.fst).Nodup)
    (hstart : ∀ p ∈ db.budgets, 0 < lookupD m.limit_map p.1 0 →
      p.2 ≤ lookupD m.limit_map p.1 0) :
    ∀ p ∈ (allocate_income m db amount).1.budgets,
      0 < lookupD m.limit_map p.1 0 → p.2 ≤ lookupD m.limit_map p.1 0 := by
  intro p hp
  simp only [allocate_income, get_balances] at hp
  rw [commitAllocations_eq_map] at hp
  rcases List.mem_map.1 hp with ⟨r, hr, rfl⟩
  simp only
  intro hlim
  have hfin := waterfallLoop_entryLE ((mkEntries m db.budgets).length + 1) amount
    (mkEntries m db.budgets)
  have hnames : (((waterfallLoop ((mkEntries m db.budgets).length + 1) amount
      (mkEntries m db.budgets)).1.map fun e => (e.name, e.alloc)).map Prod.fst)
      = m.allocation_map.map Prod.fst := by
    rw [List.map_map]
    have hcomp : (Prod.fst ∘ fun e : Entry => (e.name, e.alloc)) = Entry.name := rfl
    rw [hcomp, forall2_entryLE_names hfin, mkEntries_names]
  have hcap0 : ∀ e0 ∈ mkEntries m db.budgets, capped e0 := by
    intro e0 he0 hlim0
    obtain ⟨ha0, hl0, hb0⟩ := mkEntries_mem m db.budgets e0 he0
    rw [ha0, add_zero, hb0]
    rcases lookupD_eq_or_mem db.budgets e0.name 0 with hz | hmem
    · rw [hz]
      exact hlim0.le
    · have := hstart _ hmem (by rw [← hl0]; exact hlim0)
      rw [← hl0] at this
      exact this
  have hcap : ∀ e ∈ (waterfallLoop ((mkEntries m db.budgets).length + 1) amount
      (mkEntries m db.budgets)).1, capped e :=
    waterfallLoop_capped _ _ _ hcap0
  by_cases hk : r.1 ∈ (((waterfallLoop ((mkEntries m db.budgets).length + 1) amount
      (mkEntries m db.budgets)).1.map fun e => (e.name, e.alloc)).map Prod.fst)
  · rcases List.mem_map.1 hk with ⟨q, hq, hq1⟩
    rcases List.mem_map.1 hq with ⟨e, he, rfl⟩
    simp only at hq1
    obtain ⟨e0, he0, hle⟩ := forall2_mem_right hfin he
    obtain ⟨ha0, hl0, hb0⟩ := mkEntries_mem m db.budgets e0 he0
    have hname : e.name = r.1 := hq1
    have hlimE : e.limit = lookupD m.limit_map r.1 0 := by
      rw [hle.2.2.1, hl0, ← hle.1, hname]
    have hbalE : e.balance = r.2 := by
      rw [hle.2.2.2.1, hb0, ← hle.1, hname]
      exact lookupD_of_mem_nodup db.budgets r.1 r.2 0 hB hr
    have hposC : posCredit ((waterfallLoop ((mkEntries m db.budgets).length + 1) amount
        (mkEntries m db.budgets)).1.map fun e => (e.name, e.alloc)) r.1 =
        if 0 < e.alloc then e.alloc else 0 := by
      apply posCredit_of_mem_nodup _ _ _ (hnames ▸ hA)
      rw [← hname]
      exact List.mem_map.2 ⟨e, he, rfl⟩
    rw [hposC]
    have hcapE := hcap e he (by rw [hlimE]; exact hlim)
    by_cases hae : 0 < e.alloc
    · rw [if_pos hae]
      have : e.balance + e.alloc ≤ e.limit := hcapE
      rw [hbalE, hlimE] at this
      exact this
    · rw [if_neg hae, add_zero]
      exact hstart r hr hlim
  · rw [posCredit_of_not_mem _ _ hk, add_zero]
    exact hstart r hr hlim

theorem allocate_income_respects_caps_witness :
    ("A", (10 : ℚ)) ∈ (allocate_income ⟨[("A", 1)], [("A", 10)]⟩ ⟨[], 0, [("A", 4)]⟩
      100).1.budgets ∧
    (("A", (10 : ℚ)) : String × ℚ).2 ≤ lookupD [("A", 10)] ("A", (10 : ℚ)).1 0 := by
  have hmk : mkEntries ⟨[("A", 1)], [("A", 10)]⟩ (get_balances ⟨[], 0, [("A", 4)]⟩) =
      [⟨"A", 1, 10, 4, 0⟩] := by
    norm_num [mkEntries, mkEntry, lookupD, get_balances]
  have h1 : waterfallLoop 2 100 [⟨"A", 1, 10, 4, 0⟩] =
      waterfallLoop 1 94 [⟨"A", 1, 10, 4, 6⟩] := by
    rw [waterfallLoop]
    norm_num [roundDistributed, totalActiveWeight, isActive, List.filter, entryAdd,
      entryShare, applyRound, List.cons_ne_nil]
  have h2 : waterfallLoop 1 94 [⟨"A", 1, 10, 4, 6⟩] = ([⟨"A", 1, 10, 4, 6⟩], 94) := by
    rw [waterfallLoop]
    norm_num [isActive, List.filter]
  have hmem : ("A", (10 : ℚ)) ∈ (allocate_income ⟨[("A", 1)], [("A", 10)]⟩
      ⟨[], 0, [("A", 4)]⟩ 100).1.budgets := by
    simp only [allocate_income]
    rw [hmk]
    rw [show ([⟨"A", 1, 10, 4, 0⟩] : List Entry).length + 1 = 2 from rfl]
    rw [h1, h2]
    norm_num [commitAllocations, applyCredit]
  refine ⟨hmem, ?_⟩
  exact allocate_income_respects_caps ⟨[("A", 1)], [("A", 10)]⟩ ⟨[], 0, [("A", 4)]⟩ 100
    (by simp) (by simp)
    (by
      intro p hp
      rcases List.mem_singleton.1 hp with rfl
      norm_num [lookupD])
    ("A", (10 : ℚ)) hmem (by norm_num [lookupD])

/-- C3: with categories A (weight 0.5, cap 100, balance 90) and B
(weight 0.5, cap 0 meaning uncapped, balance 0), allocate_income 100 credits
A exactly 10 (filling it to its cap) and B exactly 90 (absorbing the
redirected remainder), not a 50/50 split. -/
theorem allocate_income_waterfall_overflow :
    (allocate_income
      { allocation_map := [("A", 1/2), ("B", 1/2)], limit_map := [("A", 100), ("B", 0)] }
      { expenses := [], nextId := 0, budgets := [("A", 90), ("B", 0)] } 100).2 =
      [("A", 10), ("B", 90)] := by
  have hmk : mkEntries
      { allocation_map := [("A", 1/2), ("B", 1/2)], limit_map := [("A", 100), ("B", 0)] }
      [("A", 90), ("B", 0)] = [⟨"A", 1/2, 100, 90, 0⟩, ⟨"B", 1/2, 0, 0, 0⟩] := by
    norm_num [mkEntries, mkEntry, lookupD]
    decide
  have h1 : waterfallLoop 3 100 [⟨"A", 1/2, 100, 90, 0⟩, ⟨"B", 1/2, 0, 0, 0⟩] =
      waterfallLoop 2 40 [⟨"A", 1/2, 100, 90, 10⟩, ⟨"B", 1/2, 0, 0, 50⟩] := by
    rw [waterfallLoop]
    norm_num [roundDistributed, totalActiveWeight, isActive, List.filter, entryAdd, entryShare,
      applyRound, List.cons_ne_nil]
  have h2 : waterfallLoop 2 40 [⟨"A", 1/2, 100, 90, 10⟩, ⟨"B", 1/2, 0, 0, 50⟩] =
      waterfallLoop 1 0 [⟨"A", 1/2, 100, 90, 10⟩, ⟨"B", 1/2, 0, 0, 90⟩] := by
    rw [waterfallLoop]
    norm_num [roundDistributed, totalActiveWeight, isActive, List.filter, entryAdd, entryShare,
      applyRound, List.cons_ne_nil]
  have h3 : waterfallLoop 1 0 [⟨"A", 1/2, 100, 90, 10⟩, ⟨"B", 1/2, 0, 0, 90⟩] =
      ([⟨"A", 1/2, 100, 90, 10⟩, ⟨"B", 1/2, 0, 0, 90⟩], 0) :=
    waterfallLoop_of_le 1 0 _ (by norm_num)
  simp only [allocate_income, get_balances]
  rw [hmk]
  rw [show ([⟨"A", 1/2, 100, 90, 0⟩, ⟨"B", 1/2, 0, 0, 0⟩] : List Entry).length + 1 = 3 from rfl]
  rw [h1, h2, h3]
  norm_num

theorem allocate_income_snd_sum (m : Manager) (db : DB) (amount : ℚ) :
    ((allocate_income m db amount).2.map Prod.snd).sum =
      allocSum (finalEntries m db amount) := by
  simp only [allocate_income, finalEntries, allocSum, List.map_map]
  rfl

/-- C2 as stated fails for negative income: with one category of weight 1
and no cap, allocate_income (-1) allocates 0 in total, and 0 exceeds -1. -/
theorem allocate_income_sum_counterexample :
    ¬ (((allocate_income ⟨[("A", 1)], [("A", 0)]⟩ ⟨[], 0, [("A", 0)]⟩ (-1)).2.map
        Prod.snd).sum ≤ -1) := by
  norm_num [allocate_income, get_balances, mkEntries, mkEntry, lookupD, waterfallLoop]

/-- C2 (amended): for nonnegative income the returned allocations never sum
to more than the income; and the sum equals the income exactly whenever the
income is above the 0.01 epsilon floor, some category has positive weight
and nonnegative cap, and no positively weighted capped category ends the run
at or over its cap (no category reached its cap during the run). -/
theorem allocate_income_sum (m : Manager) (db : DB) (amount : ℚ) (h0 : 0 ≤ amount) :
    ((allocate_income m db amount).2.map Prod.snd).sum ≤ amount ∧
    (1 / 100 < amount →
      (∃ p ∈ m.allocation_map, 0 < p.2 ∧ 0 ≤ lookupD m.limit_map p.1 0) →
      (∀ e ∈ finalEntries m db amount, 0 < e.weight → 0 < e.limit →
        e.balance + e.alloc < e.limit) →
      ((allocate_income m db amount).2.map Prod.snd).sum = amount) := by
  have hcons := waterfallLoop_conserves ((mkEntries m (get_balances db)).length + 1) amount
    (mkEntries m (get_balances db))
  rw [mkEntries_allocSum, zero_add] at hcons
  have hrem := waterfallLoop_remaining_nonneg ((mkEntries m (get_balances db)).length + 1)
    amount (mkEntries m (get_balances db)) h0
  have hsum := allocate_income_snd_sum m db amount
  constructor
  · rw [hsum]
    unfold finalEntries
    linarith
  · intro hamt hex hfinal
    obtain ⟨p, hpmem, hpw, hpl⟩ := hex
    have he0 : mkEntry m.limit_map (get_balances db) p ∈ mkEntries m (get_balances db) :=
      List.mem_map.2 ⟨p, hpmem, rfl⟩
    have hfull : List.Forall₂ entryLE (mkEntries m (get_balances db))
        (finalEntries m db amount) := waterfallLoop_entryLE _ _ _
    have he0a : isActive (mkEntry m.limit_map (get_balances db) p) = true := by
      rw [isActive_iff]
      refine ⟨hpw, ?_⟩
      rcases eq_or_lt_of_le hpl with hl0 | hlpos
      · exact Or.inl hl0.symm
      · right
        obtain ⟨g, hg, hle⟩ := forall2_mem_left hfull he0
        have hgf := hfinal g hg (by rw [hle.2.1]; exact hpw) (by rw [hle.2.2.1]; exact hlpos)
        have hb : g.balance = (mkEntry m.limit_map (get_balances db) p).balance := hle.2.2.2.1
        have hal : (mkEntry m.limit_map (get_balances db) p).alloc ≤ g.alloc := hle.2.2.2.2
        have hll : g.limit = (mkEntry m.limit_map (get_balances db) p).limit := hle.2.2.1
        rw [← hll, ← hb]
        linarith
    have hne : (mkEntries m (get_balances db)).filter isActive ≠ [] :=
      List.ne_nil_of_mem (List.mem_filter.2 ⟨he0, he0a⟩)
    have hW := totalActiveWeight_pos (mkEntries m (get_balances db)) hne
    have hchain : List.Forall₂ entryLE (applyRound amount (mkEntries m (get_balances db)))
        (finalEntries m db amount) := by
      unfold finalEntries
      rw [waterfallLoop]
      rw [if_neg (not_le.2 hamt), if_neg hne, if_neg hW.ne']
      split
      · exact forall2_entryLE_refl _
      · exact waterfallLoop_entryLE _ _ _
    have hAddEq : ∀ e ∈ (mkEntries m (get_balances db)).filter isActive,
        entryAdd amount (totalActiveWeight (mkEntries m (get_balances db))) e =
        entryShare amount (totalActiveWeight (mkEntries m (get_balances db))) e := by
      intro e hef
      have hea := (List.mem_filter.1 hef).2
      have hee := (List.mem_filter.1 hef).1
      by_cases hl : 0 < e.limit
      · unfold entryAdd
        rw [if_pos hl]
        rcases min_cases (entryShare amount (totalActiveWeight (mkEntries m (get_balances db))) e)
          (e.limit - (e.balance + e.alloc)) with ⟨hm, _⟩ | ⟨hm, hcmp⟩
        · exact hm
        · exfalso
          have hu : ({ e with alloc := (e.alloc +
                entryAdd amount (totalActiveWeight (mkEntries m (get_balances db))) e) } : Entry) ∈
                applyRound amount (mkEntries m (get_balances db)) := by
              unfold applyRound
              refine List.mem_map.2 ⟨e, hee, ?_⟩
              rw [if_pos hea]
          obtain ⟨g, hg, hle⟩ := forall2_mem_left hchain hu
          have hgw : 0 < g.weight := by
            rw [hle.2.1]
            exact ((isActive_iff e).1 hea).1
          have hgl : 0 < g.limit := by
            rw [hle.2.2.1]
            exact hl
          have hgf := hfinal g hg hgw hgl
          have hb : g.balance = e.balance := hle.2.2.2.1
          have hll : g.limit = e.limit := hle.2.2.1
          have hal : e.alloc +
              entryAdd amount (totalActiveWeight (mkEntries m (get_balances db))) e ≤
              g.alloc := hle.2.2.2.2
          have haddv : entryAdd amount (totalActiveWeight (mkEntries m (get_balances db))) e =
              e.limit - (e.balance + e.alloc) := by
            unfold entryAdd
            rw [if_pos hl]
            exact hm
          rw [haddv] at hal
          rw [hb, hll] at hgf
          linarith
      · unfold entryAdd
        rw [if_neg hl]
    have hdist : roundDistributed amount (mkEntries m (get_balances db)) = amount := by
      unfold roundDistributed
      rw [List.map_congr_left hAddEq]
      exact shareSum_eq amount (mkEntries m (get_balances db)) hne
    have key : (waterfallLoop ((mkEntries m (get_balances db)).length + 1) amount
        (mkEntries m (get_balances db))).2 = 0 := by
      rw [waterfallLoop]
      rw [if_neg (not_le.2 hamt), if_neg hne, if_neg hW.ne', hdist]
      rw [if_neg (by linarith : ¬ amount < 1 / 100), sub_self]
      rw [waterfallLoop_of_le _ 0 _ (by norm_num)]
    rw [hsum]
    unfold finalEntries
    rw [key] at hcons
    linarith

theorem allocate_income_sum_witness :
    ((allocate_income ⟨[("A", 1)], [("A", 0)]⟩ ⟨[], 0, [("A", 0)]⟩ 5).2.map Prod.snd).sum
      = 5 := by
  have hf : finalEntries ⟨[("A", 1)], [("A", 0)]⟩ ⟨[], 0, [("A", 0)]⟩ 5 =
      [⟨"A", 1, 0, 0, 5⟩] := by
    have hmk : mkEntries ⟨[("A", 1)], [("A", 0)]⟩
        (get_balances ⟨[], 0, [("A", 0)]⟩) = [⟨"A", 1, 0, 0, 0⟩] := by
      norm_num [mkEntries, mkEntry, lookupD, get_balances]
    have h1 : waterfallLoop 2 5 [⟨"A", 1, 0, 0, 0⟩] =
        waterfallLoop 1 0 [⟨"A", 1, 0, 0, 5⟩] := by
      rw [waterfallLoop]
      norm_num [roundDistributed, totalActiveWeight, isActive, List.filter, entryAdd,
        entryShare, applyRound, List.cons_ne_nil]
    unfold finalEntries
    rw [hmk]
    rw [show ([⟨"A", 1, 0, 0, 0⟩] : List Entry).length + 1 = 2 from rfl]
    rw [h1, waterfallLoop_of_le 1 0 _ (by norm_num)]
  refine (allocate_income_sum ⟨[("A", 1)], [("A", 0)]⟩ ⟨[], 0, [("A", 0)]⟩ 5
    (by norm_num)).2 (by norm_num)
    ⟨("A", 1), List.mem_singleton.2 rfl, by norm_num, by norm_num [lookupD]⟩ ?_
  intro e he
  rw [hf] at he
  rcases List.mem_singleton.1 he with rfl
  intro _ hlim
  norm_num at hlim

end MhFinance
